import Mathlib

/-!
# Verification of the BlockSpool run-state store and guidelines loader

This file gives a shallow embedding of two TypeScript modules:

* the run-state persistence module (`readRunState`, `writeRunState`,
  `recordCycle`, `isDocsAuditDue`, `recordDocsAudit`, `deferProposal`,
  `popDeferredForScope`), which stores a JSON record at
  `.blockspool/run-state.json` under a repository root; and
* the guidelines loader (`loadGuidelines`, `readGuidelinesFile`,
  `searchPaths`) from `packages/mcp/src/guidelines.ts`.

Modelling conventions:

* Strings are `List Char` (`JStr`).  JavaScript runtime values are the
  inductive `JsVal`; JavaScript numbers are `JsNum` (`nan` or an integer —
  every numeric value appearing in this code is an integer timestamp,
  counter or score; non-integer floats are outside the scope of the claims).
* A JavaScript expression that can throw a `TypeError` (property access on
  `null`/`undefined`, calling a missing method) is modelled in the `Option`
  monad, `none` meaning the exception propagates.
* The backing file is `Store := Option FileContent`: `none` for an absent
  file, `FileContent.invalid` for a file whose content does not parse as
  JSON (this also covers a read that throws), and `FileContent.json v` for
  a file parsing to the JSON value `v`.  `JSON.parse ∘ JSON.stringify` is
  modelled as the identity on the stored value; the normalization that
  `JSON.stringify` applies to values JSON cannot represent (dropping
  `undefined` properties, turning `NaN` into `null`) is not modelled, and
  theorems reading back a written state only rely on values JSON can
  represent.
* `Date.now()` is an explicit `now : Int` parameter.
* The repository root is fixed: `path.join(repoRoot, ...)` is abstracted
  away and the stores/filesystems are keyed by the relative path only.
-/

set_option linter.unusedVariables false

/-- JavaScript strings, modelled as lists of characters. -/
abbrev JStr := List Char

/-- JavaScript numbers restricted to the values relevant here: `NaN` or an
integer.  All numbers this code manipulates are integer timestamps,
counters and scores. -/
inductive JsNum where
  | nan : JsNum
  | int (i : Int) : JsNum
deriving DecidableEq

namespace JsNum

/-- JavaScript addition on numbers: `NaN` propagates. -/
def add : JsNum → JsNum → JsNum
  | .int a, .int b => .int (a + b)
  | _, _ => .nan

/-- JavaScript subtraction on numbers: `NaN` propagates. -/
def sub : JsNum → JsNum → JsNum
  | .int a, .int b => .int (a - b)
  | _, _ => .nan

/-- JavaScript `>` on numbers: any comparison with `NaN` is `false`. -/
def gt : JsNum → JsNum → Bool
  | .int a, .int b => decide (b < a)
  | _, _ => false

/-- JavaScript `>=` on numbers: any comparison with `NaN` is `false`. -/
def ge : JsNum → JsNum → Bool
  | .int a, .int b => decide (b ≤ a)
  | _, _ => false

end JsNum

/-- JavaScript runtime values (restricted to what this code manipulates). -/
inductive JsVal where
  | undefined : JsVal
  | null : JsVal
  | bool (b : Bool) : JsVal
  | num (n : JsNum) : JsVal
  | str (s : JStr) : JsVal
  | arr (elems : List JsVal) : JsVal
  | obj (fields : List (JStr × JsVal)) : JsVal

/-- Whitespace for `ToNumber` string trimming. -/
def isJsSpace (c : Char) : Bool := c = ' ' ∨ c = '\n' ∨ c = '\t' ∨ c = '\r'

/-- Trim leading and trailing whitespace. -/
def trimWS (s : JStr) : JStr :=
  ((s.dropWhile isJsSpace).reverse.dropWhile isJsSpace).reverse

/-- Value of a nonempty all-digit string. -/
def digitsToNat (s : JStr) : Nat :=
  s.foldl (fun a c => a * 10 + (c.toNat - 48)) 0

/-- JavaScript ToNumber applied to a string: trimmed empty string is `0`, an optionally
signed decimal integer numeral is its value, anything else `NaN`.
(Fractional, hexadecimal and exponent forms are not modelled; no theorem
relies on them.) -/
def parseJsNumber (s : JStr) : JsNum :=
  let t := trimWS s
  match t with
  | [] => .int 0
  | '-' :: ds => if ds ≠ [] ∧ ds.all Char.isDigit then .int (-(digitsToNat ds : Int)) else .nan
  | '+' :: ds => if ds ≠ [] ∧ ds.all Char.isDigit then .int (digitsToNat ds) else .nan
  | ds => if ds.all Char.isDigit then .int (digitsToNat ds) else .nan

/-- JavaScript `ToNumber`.  Arrays and objects coerce through `ToPrimitive`;
that coercion is approximated as `NaN` (exact for plain objects and for
arrays of 2 or more elements; no theorem relies on numerically coercing an
array or object). -/
def toNumber : JsVal → JsNum
  | .undefined => .nan
  | .null => .int 0
  | .bool b => .int (if b then 1 else 0)
  | .num n => n
  | .str s => parseJsNumber s
  | .arr _ => .nan
  | .obj _ => .nan

/-- JavaScript `ToString`, used only for the string branch of `+`.
Arrays and objects are approximated by the empty string (no theorem relies
on stringifying them). -/
def jsToString : JsVal → JStr
  | .undefined => "undefined".toList
  | .null => "null".toList
  | .bool true => "true".toList
  | .bool false => "false".toList
  | .num .nan => "NaN".toList
  | .num (.int i) => (toString i).toList
  | .str s => s
  | .arr _ => []
  | .obj _ => []

/-- JavaScript `+`: string concatenation if either operand is a string,
numeric addition otherwise (`ToPrimitive` on arrays/objects approximated by
the numeric branch; no theorem adds an array or object). -/
def jsAdd (a b : JsVal) : JsVal :=
  match a, b with
  | .str s, b => .str (s ++ jsToString b)
  | a, .str s => .str (jsToString a ++ s)
  | a, b => .num (JsNum.add (toNumber a) (toNumber b))

/-- JavaScript strict equality `===` on the values compared by this code.
For two arrays or two objects, `===` is reference equality; the values
compared by `deferProposal` come from distinct allocations (a fresh
`JSON.parse` result versus a caller-supplied object), so reference equality
is `false` there, which is what this returns. -/
def jsStrictEq : JsVal → JsVal → Bool
  | .undefined, .undefined => true
  | .null, .null => true
  | .bool a, .bool b => decide (a = b)
  | .num (.int a), .num (.int b) => decide (a = b)
  | .str a, .str b => decide (a = b)
  | _, _ => false

/-- Last binding of `key` in an object's field list (later bindings win, as
with duplicate keys in `JSON.parse`); `undefined` if absent. -/
def lookupField (fields : List (JStr × JsVal)) (key : JStr) : JsVal :=
  match fields.reverse.find? (fun p => decide (p.1 = key)) with
  | some p => p.2
  | none => .undefined

/-- JavaScript property access `v[key]`: `none` models the `TypeError`
thrown on `null`/`undefined`.  Strings and arrays expose `length`;
numeric index access is not modelled (unused). -/
def jsGet (v : JsVal) (key : JStr) : Option JsVal :=
  match v with
  | .undefined => none
  | .null => none
  | .obj fields => some (lookupField fields key)
  | .arr l => some (if key = "length".toList then .num (.int l.length) else .undefined)
  | .str s => some (if key = "length".toList then .num (.int s.length) else .undefined)
  | .num _ => some .undefined
  | .bool _ => some .undefined

/-- JavaScript `??` (nullish coalescing). -/
def jsCoalesce (v d : JsVal) : JsVal :=
  match v with
  | .undefined => d
  | .null => d
  | v => v

/-- Source method `String.prototype.startsWith`: here `none` models the `TypeError` when the
receiver is not a string. -/
def jsStartsWith (v : JsVal) (pre : JStr) : Option Bool :=
  match v with
  | .str s => some (pre.isPrefixOf s)
  | _ => none

/-- Short-circuiting `Array.prototype.every` body: a `false` result stops
the iteration before later elements can throw. -/
def jsEveryList (p : JsVal → Option Bool) : List JsVal → Option Bool
  | [] => some true
  | x :: xs => do
      let b ← p x
      if b then jsEveryList p xs else pure false

/-- Source method `Array.prototype.every`: here `none` models the `TypeError` when the receiver
is not an array. -/
def jsEvery (v : JsVal) (p : JsVal → Option Bool) : Option Bool :=
  match v with
  | .arr l => jsEveryList p l
  | _ => none

/-! ## The backing file and the run state -/

/-- Content of `.blockspool/run-state.json`: either unparsable (also covers
a read that throws) or a JSON value. -/
inductive FileContent where
  | invalid : FileContent
  | json (v : JsVal) : FileContent

/-- The backing file: `none` when `fs.existsSync` is false. -/
abbrev Store := Option FileContent

/-- The `RunState` record as produced by `readRunState`.  The scalar fields
are runtime values taken from the parsed JSON without type validation;
`deferredProposals` is a genuine list because `readRunState` checks
`Array.isArray`, but its elements are unvalidated runtime values. -/
structure RunState where
  totalCycles : JsVal
  lastDocsAuditCycle : JsVal
  lastRunAt : JsVal
  deferredProposals : List JsVal

/-- Constant `DEFAULT_STATE` from the source. -/
def DEFAULT_STATE : RunState :=
  { totalCycles := .num (.int 0)
    lastDocsAuditCycle := .num (.int 0)
    lastRunAt := .num (.int 0)
    deferredProposals := [] }

def keyTotalCycles : JStr := "totalCycles".toList
def keyLastDocsAuditCycle : JStr := "lastDocsAuditCycle".toList
def keyLastRunAt : JStr := "lastRunAt".toList
def keyDeferredProposals : JStr := "deferredProposals".toList

/-- Source expression `Array.isArray(x) ? x : []`. -/
def asArrayList (v : JsVal) : List JsVal :=
  match v with
  | .arr l => l
  | _ => []

/-- The field extraction inside `readRunState`'s `try` block:
each top-level field is defaulted individually with `?? 0`, and
`deferredProposals` is kept verbatim when `Array.isArray` holds and
replaced by `[]` otherwise.  `none` models a thrown `TypeError`
(property access on a non-object JSON root such as `null`), which the
surrounding `try`/`catch` turns into the default state. -/
def readStateFields (parsed : JsVal) : Option RunState := do
  let tc ← jsGet parsed keyTotalCycles
  let ldac ← jsGet parsed keyLastDocsAuditCycle
  let lra ← jsGet parsed keyLastRunAt
  let dps ← jsGet parsed keyDeferredProposals
  pure
    { totalCycles := jsCoalesce tc (.num (.int 0))
      lastDocsAuditCycle := jsCoalesce ldac (.num (.int 0))
      lastRunAt := jsCoalesce lra (.num (.int 0))
      deferredProposals := asArrayList dps }

/-- Function `readRunState`: default state if the file is absent, unparsable, or the
extraction throws; otherwise the individually-defaulted fields. -/
def readRunState (store : Store) : RunState :=
  match store with
  | none => DEFAULT_STATE
  | some .invalid => DEFAULT_STATE
  | some (.json parsed) =>
      match readStateFields parsed with
      | some s => s
      | none => DEFAULT_STATE

/-- Function `writeRunState`: overwrites the backing file with the serialized state.
`JSON.stringify`/`JSON.parse` are modelled as identities on the stored
JSON value (see the module docstring). -/
def writeRunState (state : RunState) : Store :=
  some (.json (.obj
    [(keyTotalCycles, state.totalCycles),
     (keyLastDocsAuditCycle, state.lastDocsAuditCycle),
     (keyLastRunAt, state.lastRunAt),
     (keyDeferredProposals, .arr state.deferredProposals)]))

/-- Function `recordCycle`: read-modify-write, `totalCycles += 1` (JavaScript `+`)
and `lastRunAt = Date.now()`; returns the new state alongside the written
file. -/
def recordCycle (store : Store) (now : Int) : RunState × Store :=
  let state := readRunState store
  let state' :=
    { state with
      totalCycles := jsAdd state.totalCycles (.num (.int 1))
      lastRunAt := .num (.int now) }
  (state', writeRunState state')

/-- Function `isDocsAuditDue`: `(state.totalCycles - state.lastDocsAuditCycle) >=
interval`.  JavaScript `-` coerces both sides with `ToNumber`; `>=` against
the number `interval` is then a numeric comparison.  The source gives
`interval` the default value `3`.  The function only reads: it produces no
new store. -/
def isDocsAuditDue (store : Store) (interval : Int) : Bool :=
  let state := readRunState store
  JsNum.ge (JsNum.sub (toNumber state.totalCycles) (toNumber state.lastDocsAuditCycle))
    (.int interval)

/-- Function `recordDocsAudit`: sets `lastDocsAuditCycle` to the current
`totalCycles` and persists. -/
def recordDocsAudit (store : Store) : Store :=
  let state := readRunState store
  writeRunState { state with lastDocsAuditCycle := state.totalCycles }

/-- Constant `MAX_DEFERRED_AGE_MS = 7 * 24 * 60 * 60 * 1000`. -/
def MAX_DEFERRED_AGE_MS : Int := 7 * 24 * 60 * 60 * 1000

def keyTitle : JStr := "title".toList
def keyDeferredAt : JStr := "deferredAt".toList
def keyFiles : JStr := "files".toList
def keyAllowedPaths : JStr := "allowed_paths".toList

/-- The callback loop of `state.deferredProposals.some(d => d.title ===
proposal.title)`: both property accesses happen per iteration and can
throw; an empty list never evaluates the callback. -/
def someTitleEq (proposal : JsVal) : List JsVal → Option Bool
  | [] => some false
  | d :: ds => do
      let dt ← jsGet d keyTitle
      let pt ← jsGet proposal keyTitle
      if jsStrictEq dt pt then pure true else someTitleEq proposal ds

/-- Function `deferProposal`: append unless a stored proposal has the same `title`;
persists only when it appended.  `none` models a thrown `TypeError`
(e.g. a `null` backlog element). -/
def deferProposal (store : Store) (proposal : JsVal) : Option Store := do
  let state := readRunState store
  let dup ← someTitleEq proposal state.deferredProposals
  if dup then pure store
  else pure (writeRunState
    { state with deferredProposals := state.deferredProposals ++ [proposal] })

/-- Scope normalization from `popDeferredForScope`:
`scope.replace(/\x2a\x2a$/, '').replace(/\x2a$/, '').replace(/\/$/, '')`. -/
def replaceSuffix (pat s : JStr) : JStr :=
  if pat.reverse.isPrefixOf s.reverse then s.take (s.length - pat.length) else s

/-- Strip one trailing `**`, then one trailing `*`, then one trailing `/`. -/
def normalizeScope (scope : JStr) : JStr :=
  replaceSuffix ['/'] (replaceSuffix ['*'] (replaceSuffix ['*', '*'] scope))

/-- How the loop body of `popDeferredForScope` classifies one stored
proposal. -/
inductive PopClass where
  | stale : PopClass
  | matched : PopClass
  | remaining : PopClass
deriving DecidableEq

/-- The `every` callback `f => f.startsWith(normalizedScope) ||
f.startsWith(normalizedScope + '/')` with JavaScript's short-circuit
`||`. -/
def startsWithScope (normalizedScope : JStr) (f : JsVal) : Option Bool := do
  let b ← jsStartsWith f normalizedScope
  if b then pure true else jsStartsWith f (normalizedScope ++ ['/'])

/-- The effective file list
`dp.files.length > 0 ? dp.files : dp.allowed_paths`. -/
def popFiles (dp : JsVal) : Option JsVal := do
  let filesRaw ← jsGet dp keyFiles
  let filesLen ← jsGet filesRaw "length".toList
  if JsNum.gt (toNumber filesLen) (.int 0) then pure filesRaw
  else jsGet dp keyAllowedPaths

/-- The in-scope test `!normalizedScope || files.length === 0 ||
files.every(...)` with JavaScript's short-circuit evaluation. -/
def popInScope (normalizedScope : JStr) (files : JsVal) : Option Bool :=
  if normalizedScope.isEmpty then pure true
  else do
    let len ← jsGet files "length".toList
    if jsStrictEq len (.num (.int 0)) then pure true
    else jsEvery files (startsWithScope normalizedScope)

/-- One iteration of the `popDeferredForScope` loop, in source order:
the age check first (`continue` on stale), then the effective file list,
then the in-scope test.  `none` models a thrown `TypeError`. -/
def popClassify (now : Int) (normalizedScope : JStr) (dp : JsVal) : Option PopClass := do
  let deferredAt ← jsGet dp keyDeferredAt
  if JsNum.gt (JsNum.sub (.int now) (toNumber deferredAt)) (.int MAX_DEFERRED_AGE_MS) then
    pure .stale
  else
    let files ← popFiles dp
    let inScope ← popInScope normalizedScope files
    pure (if inScope then .matched else .remaining)

/-- The whole loop: partition the backlog into `matched` and `remaining`,
dropping stale entries, preserving order. -/
def popPartition (now : Int) (normalizedScope : JStr) :
    List JsVal → Option (List JsVal × List JsVal)
  | [] => some ([], [])
  | dp :: rest => do
      let c ← popClassify now normalizedScope dp
      let (m, r) ← popPartition now normalizedScope rest
      match c with
      | .stale => pure (m, r)
      | .matched => pure (dp :: m, r)
      | .remaining => pure (m, dp :: r)

/-- Function `popDeferredForScope`: returns the matched proposals and persists the
remaining backlog when `matched.length > 0 || remaining.length !==
state.deferredProposals.length`.  `none` models a thrown `TypeError`
(in which case nothing is written). -/
def popDeferredForScope (store : Store) (now : Int) (scope : JStr) :
    Option (List JsVal × Store) := do
  let state := readRunState store
  let normalizedScope := normalizeScope scope
  let (matched, remaining) ← popPartition now normalizedScope state.deferredProposals
  if matched.length > 0 ∨ remaining.length ≠ state.deferredProposals.length then
    pure (matched, writeRunState { state with deferredProposals := remaining })
  else
    pure (matched, store)

def keyCategory : JStr := "category".toList
def keyDescription : JStr := "description".toList
def keyConfidence : JStr := "confidence".toList
def keyImpactScore : JStr := "impact_score".toList
def keyOriginalScope : JStr := "original_scope".toList

/-- A `DeferredProposal` object fully populated with the fields the
TypeScript interface declares, in declaration order. -/
def mkProposal (category title description : JStr) (files allowed_paths : List JStr)
    (confidence impact_score : Int) (original_scope : JStr) (deferredAt : Int) : JsVal :=
  .obj
    [(keyCategory, .str category),
     (keyTitle, .str title),
     (keyDescription, .str description),
     (keyFiles, .arr (files.map .str)),
     (keyAllowedPaths, .arr (allowed_paths.map .str)),
     (keyConfidence, .num (.int confidence)),
     (keyImpactScore, .num (.int impact_score)),
     (keyOriginalScope, .str original_scope),
     (keyDeferredAt, .num (.int deferredAt))]

/-! ## Guidelines loader (`packages/mcp/src/guidelines.ts`) -/

/-- Interface `ProjectGuidelines`. -/
structure ProjectGuidelines where
  content : JStr
  source : JStr
  loadedAt : Int
deriving DecidableEq

/-- Type `GuidelinesBackend`. -/
inductive GuidelinesBackend where
  | claude : GuidelinesBackend
  | codex : GuidelinesBackend

/-- The `customPath` option: absent/`null` (default search), the `false`
sentinel, or an explicit relative path. -/
inductive CustomPath where
  | unset : CustomPath
  | disabled : CustomPath
  | path (p : JStr) : CustomPath

/-- Constant `CLAUDE_PATHS = ['CLAUDE.md']`. -/
def CLAUDE_PATHS : List JStr := ["CLAUDE.md".toList]

/-- Constant `CODEX_PATHS = ['AGENTS.md']`. -/
def CODEX_PATHS : List JStr := ["AGENTS.md".toList]

/-- Constant `MAX_CHARS = 4000`. -/
def MAX_CHARS : Nat := 4000

/-- The `'\n\n[truncated]'` marker. -/
def truncMarker : JStr := "\n\n[truncated]".toList

/-- The filesystem seen by the guidelines loader, keyed by the path
relative to the repository root: whether `fs.existsSync` holds, and what
`fs.readFileSync` yields (`none` models a thrown read error). -/
structure GuidelinesFS where
  pathExists : JStr → Bool
  readFile : JStr → Option JStr

/-- Function `readGuidelinesFile`: `null` when the file is absent or the read
throws; otherwise the content, truncated to `MAX_CHARS` characters with
the marker appended when longer. -/
def readGuidelinesFile (fs : GuidelinesFS) (now : Int) (rel : JStr) :
    Option ProjectGuidelines :=
  if fs.pathExists rel then
    match fs.readFile rel with
    | none => none
    | some content =>
        let content :=
          if content.length > MAX_CHARS then content.take MAX_CHARS ++ truncMarker
          else content
        some { content := content, source := rel, loadedAt := now }
  else none

/-- Function `searchPaths`: first path whose read succeeds. -/
def searchPaths (fs : GuidelinesFS) (now : Int) : List JStr → Option ProjectGuidelines
  | [] => none
  | rel :: rest =>
      match readGuidelinesFile fs now rel with
      | some r => some r
      | none => searchPaths fs now rest

/-- Function `loadGuidelines`: the `customPath === false` opt-out, the explicit
custom path, or the backend-selected primary list with the opposite
backend's list as fallback (`??`). -/
def loadGuidelines (fs : GuidelinesFS) (now : Int) (backend : GuidelinesBackend)
    (customPath : CustomPath) : Option ProjectGuidelines :=
  match customPath with
  | .disabled => none
  | .path p => readGuidelinesFile fs now p
  | .unset =>
      let primaryPaths := match backend with | .codex => CODEX_PATHS | .claude => CLAUDE_PATHS
      let fallbackPaths := match backend with | .codex => CLAUDE_PATHS | .claude => CODEX_PATHS
      match searchPaths fs now primaryPaths with
      | some r => some r
      | none => searchPaths fs now fallbackPaths

/-! ## Specification-side definitions

These two definitions follow the words of the specification (not the
source); they exist to be compared with the behaviour of
`popDeferredForScope`. -/

/-- The path-matching condition as claim C1 states it: every effective path
either equals the normalized scope or starts with the normalized scope
followed by `"/"`. -/
def specPathMatches (normalizedScope : JStr) (paths : List JStr) : Bool :=
  paths.all fun f => decide (f = normalizedScope) || (normalizedScope ++ ['/']).isPrefixOf f

/-- The in-scope condition as claim C1 states it: the normalized scope is
empty, or the effective path set is empty, or every effective path matches
per `specPathMatches`. -/
def specInScope (normalizedScope : JStr) (paths : List JStr) : Bool :=
  normalizedScope.isEmpty || paths.isEmpty || specPathMatches normalizedScope paths

/-! ## Helper lemmas -/

lemma jsCoalesce_of_ne {v : JsVal} (d : JsVal) (h1 : v ≠ .undefined) (h2 : v ≠ .null) :
    jsCoalesce v d = v := by
  cases v <;> simp_all [jsCoalesce]

lemma jsCoalesce_num_ne_undefined (v : JsVal) (i : Int) :
    jsCoalesce v (.num (.int i)) ≠ .undefined := by
  cases v <;> simp [jsCoalesce]

lemma jsCoalesce_num_ne_null (v : JsVal) (i : Int) :
    jsCoalesce v (.num (.int i)) ≠ .null := by
  cases v <;> simp [jsCoalesce]

/-- What `readRunState` yields on a freshly written state: each scalar is
the written value unless it was nullish, and the backlog comes back
verbatim. -/
lemma readRunState_writeRunState (s : RunState) :
    readRunState (writeRunState s) =
      { totalCycles := jsCoalesce s.totalCycles (.num (.int 0))
        lastDocsAuditCycle := jsCoalesce s.lastDocsAuditCycle (.num (.int 0))
        lastRunAt := jsCoalesce s.lastRunAt (.num (.int 0))
        deferredProposals := s.deferredProposals } := rfl

/-- Field extraction succeeds on any value whose property accesses
succeed, with each field individually defaulted. -/
lemma readStateFields_some (parsed tc ldac lra dps : JsVal)
    (h1 : jsGet parsed keyTotalCycles = some tc)
    (h2 : jsGet parsed keyLastDocsAuditCycle = some ldac)
    (h3 : jsGet parsed keyLastRunAt = some lra)
    (h4 : jsGet parsed keyDeferredProposals = some dps) :
    readStateFields parsed = some
      { totalCycles := jsCoalesce tc (.num (.int 0))
        lastDocsAuditCycle := jsCoalesce ldac (.num (.int 0))
        lastRunAt := jsCoalesce lra (.num (.int 0))
        deferredProposals := asArrayList dps } := by
  unfold readStateFields
  rw [h1, h2, h3, h4]
  rfl

/-- If one property access on `parsed` succeeds, they all do. -/
lemma jsGet_total_of_some {parsed : JsVal} {key0 : JStr} {v0 : JsVal}
    (h : jsGet parsed key0 = some v0) (key : JStr) : ∃ v, jsGet parsed key = some v := by
  cases parsed <;> simp_all [jsGet]

/-- The scalar fields `readRunState` returns are never `undefined` or
`null`: each is either the stored value (itself non-nullish) or the
default `0`. -/
lemma readRunState_scalars_not_nullish (store : Store) :
    (readRunState store).totalCycles ≠ .undefined ∧
    (readRunState store).totalCycles ≠ .null ∧
    (readRunState store).lastDocsAuditCycle ≠ .undefined ∧
    (readRunState store).lastDocsAuditCycle ≠ .null ∧
    (readRunState store).lastRunAt ≠ .undefined ∧
    (readRunState store).lastRunAt ≠ .null := by
  have hdef : DEFAULT_STATE.totalCycles ≠ .undefined ∧
      DEFAULT_STATE.totalCycles ≠ .null ∧
      DEFAULT_STATE.lastDocsAuditCycle ≠ .undefined ∧
      DEFAULT_STATE.lastDocsAuditCycle ≠ .null ∧
      DEFAULT_STATE.lastRunAt ≠ .undefined ∧
      DEFAULT_STATE.lastRunAt ≠ .null := by
    simp [DEFAULT_STATE]
  match store with
  | none => exact hdef
  | some .invalid => exact hdef
  | some (.json parsed) =>
      cases h1 : jsGet parsed keyTotalCycles with
      | none =>
          have h : readStateFields parsed = none := by
            unfold readStateFields; rw [h1]; rfl
          simpa [readRunState, h] using hdef
      | some tc =>
        obtain ⟨ldac, h2⟩ := jsGet_total_of_some h1 keyLastDocsAuditCycle
        obtain ⟨lra, h3⟩ := jsGet_total_of_some h1 keyLastRunAt
        obtain ⟨dps, h4⟩ := jsGet_total_of_some h1 keyDeferredProposals
        simp [readRunState, readStateFields_some parsed tc ldac lra dps h1 h2 h3 h4,
          jsCoalesce_num_ne_undefined, jsCoalesce_num_ne_null]

/-! ### Scope normalization lemmas -/

lemma isPrefixOf_cons_cons (a b : Char) (l r : JStr) :
    (a :: l).isPrefixOf (b :: r) = (a == b && l.isPrefixOf r) := rfl

lemma isPrefixOf_append_self (l t : JStr) : l.isPrefixOf (l ++ t) = true := by
  induction l with
  | nil => simp
  | cons a l ih => simp [isPrefixOf_cons_cons, ih]

/-- Extending the pattern cannot make a failing prefix test succeed. -/
lemma isPrefixOf_false_of_cons {c : Char} {l : JStr} (rest : JStr)
    (h : [c].isPrefixOf l = false) : (c :: rest).isPrefixOf l = false := by
  cases l with
  | nil => rfl
  | cons b bs =>
      have hcb : (c == b) = false := by
        rw [isPrefixOf_cons_cons] at h
        simpa using h
      rw [isPrefixOf_cons_cons, hcb, Bool.false_and]

lemma replaceSuffix_of_no_match {pat s : JStr}
    (h : pat.reverse.isPrefixOf s.reverse = false) : replaceSuffix pat s = s := by
  simp [replaceSuffix, h]

lemma replaceSuffix_append (pat s : JStr) : replaceSuffix pat (s ++ pat) = s := by
  have hpre : pat.reverse.isPrefixOf (s ++ pat).reverse = true := by
    rw [List.reverse_append]; exact isPrefixOf_append_self _ _
  simp only [replaceSuffix, hpre, if_true]
  rw [List.length_append, Nat.add_sub_cancel]
  induction s with
  | nil => simp
  | cons a s ih => simp [ih]

/-- A string that does not end in `c` (expressed on the reversed string)
stays clear of a `[c]`-suffix strip. -/
lemma singleton_suffix_false {s : JStr} {c : Char}
    (h : [c].isPrefixOf s.reverse = false) : replaceSuffix [c] s = s :=
  replaceSuffix_of_no_match (by simpa using h)

lemma isPrefixOf_head_ne (a b : Char) (l r : JStr) (h : (a == b) = false) :
    (a :: l).isPrefixOf (b :: r) = false := by
  rw [isPrefixOf_cons_cons, h, Bool.false_and]

/-- For a scope with no trailing `*` and no trailing `/` (stated on the
reversed string), the scope itself and its `/`, `/*`, `/**` variants all
normalize to the scope. -/
lemma normalizeScope_eq_of_clean {s : JStr}
    (h1 : ['*'].isPrefixOf s.reverse = false)
    (h2 : ['/'].isPrefixOf s.reverse = false) :
    normalizeScope s = s ∧
    normalizeScope (s ++ ['/']) = s ∧
    normalizeScope (s ++ ['/', '*']) = s ∧
    normalizeScope (s ++ ['/', '*', '*']) = s := by
  have hslash_rev : (s ++ ['/']).reverse = '/' :: s.reverse := by simp
  have hstar_rev : (s ++ ['/', '*']).reverse = '*' :: '/' :: s.reverse := by simp
  have hB_slash : replaceSuffix ['*'] (s ++ ['/']) = s ++ ['/'] := by
    apply replaceSuffix_of_no_match
    rw [show (['*'] : JStr).reverse = ['*'] from rfl, hslash_rev]
    exact isPrefixOf_head_ne _ _ _ _ (by decide)
  have hC_slash : replaceSuffix ['/'] (s ++ ['/']) = s := replaceSuffix_append _ _
  refine ⟨?_, ?_, ?_, ?_⟩
  · have hA : replaceSuffix ['*', '*'] s = s := by
      apply replaceSuffix_of_no_match
      rw [show (['*', '*'] : JStr).reverse = ['*', '*'] from rfl]
      exact isPrefixOf_false_of_cons ['*'] h1
    have hB : replaceSuffix ['*'] s = s := singleton_suffix_false h1
    have hC : replaceSuffix ['/'] s = s := singleton_suffix_false h2
    simp [normalizeScope, hA, hB, hC]
  · have hA : replaceSuffix ['*', '*'] (s ++ ['/']) = s ++ ['/'] := by
      apply replaceSuffix_of_no_match
      rw [show (['*', '*'] : JStr).reverse = ['*', '*'] from rfl, hslash_rev]
      exact isPrefixOf_head_ne _ _ _ _ (by decide)
    simp [normalizeScope, hA, hB_slash, hC_slash]
  · have hA : replaceSuffix ['*', '*'] (s ++ ['/', '*']) = s ++ ['/', '*'] := by
      apply replaceSuffix_of_no_match
      rw [show (['*', '*'] : JStr).reverse = ['*', '*'] from rfl, hstar_rev]
      rw [isPrefixOf_cons_cons]
      have hne : (['*'] : JStr).isPrefixOf ('/' :: s.reverse) = false :=
        isPrefixOf_head_ne _ _ _ _ (by decide)
      simp [hne]
    have hB : replaceSuffix ['*'] (s ++ ['/', '*']) = s ++ ['/'] := by
      have hsplit : s ++ ['/', '*'] = (s ++ ['/']) ++ ['*'] := by simp
      rw [hsplit]; exact replaceSuffix_append _ _
    simp [normalizeScope, hA, hB, hC_slash]
  · have hA : replaceSuffix ['*', '*'] (s ++ ['/', '*', '*']) = s ++ ['/'] := by
      have hsplit : s ++ ['/', '*', '*'] = (s ++ ['/']) ++ ['*', '*'] := by simp
      rw [hsplit]; exact replaceSuffix_append _ _
    simp [normalizeScope, hA, hB_slash, hC_slash]

/-- Congruence: `popDeferredForScope` depends on its scope argument only through
`normalizeScope`. -/
lemma popDeferredForScope_norm_congr {a b : JStr} (h : normalizeScope a = normalizeScope b)
    (store : Store) (now : Int) :
    popDeferredForScope store now a = popDeferredForScope store now b := by
  unfold popDeferredForScope
  rw [h]

/-! ### `popDeferredForScope` loop lemmas -/

lemma popPartition_nil (now : Int) (ns : JStr) : popPartition now ns [] = some ([], []) := rfl

lemma popPartition_cons {now : Int} {ns : JStr} {dp : JsVal} {rest : List JsVal}
    {m r : List JsVal} (h : popPartition now ns (dp :: rest) = some (m, r)) :
    ∃ c m' r', popClassify now ns dp = some c ∧ popPartition now ns rest = some (m', r') ∧
      ((c = .stale ∧ m = m' ∧ r = r') ∨
       (c = .matched ∧ m = dp :: m' ∧ r = r') ∨
       (c = .remaining ∧ m = m' ∧ r = dp :: r')) := by
  cases hc : popClassify now ns dp with
  | none => rw [popPartition, hc] at h; simp at h
  | some c =>
    cases hp : popPartition now ns rest with
    | none => rw [popPartition, hc, hp] at h; simp at h
    | some pr =>
      obtain ⟨m', r'⟩ := pr
      rw [popPartition, hc, hp] at h
      refine ⟨c, m', r', rfl, rfl, ?_⟩
      cases c with
      | stale => simp at h; exact Or.inl ⟨rfl, h.1.symm, h.2.symm⟩
      | matched => simp at h; exact Or.inr (Or.inl ⟨rfl, h.1.symm, h.2.symm⟩)
      | remaining => simp at h; exact Or.inr (Or.inr ⟨rfl, h.1.symm, h.2.symm⟩)

/-- Soundness of the `popDeferredForScope` loop: where each element ends
up is exactly determined by its classification, every element is
classified without throwing, and stale elements strictly shrink the
backlog. -/
lemma popPartition_sound (now : Int) (ns : JStr) :
    ∀ (l m r : List JsVal), popPartition now ns l = some (m, r) →
      (∀ x ∈ m, x ∈ l ∧ popClassify now ns x = some .matched) ∧
      (∀ x ∈ r, x ∈ l ∧ popClassify now ns x = some .remaining) ∧
      (∀ x ∈ l, popClassify now ns x = some .matched → x ∈ m) ∧
      (∀ x ∈ l, popClassify now ns x = some .remaining → x ∈ r) ∧
      (∀ x ∈ l, ∃ c, popClassify now ns x = some c) ∧
      m.length + r.length ≤ l.length ∧
      (∀ x ∈ l, popClassify now ns x = some .stale → m.length + r.length < l.length) := by
  intro l
  induction l with
  | nil =>
      intro m r h
      rw [popPartition_nil] at h
      simp only [Option.some_inj, Prod.mk.injEq] at h
      obtain ⟨rfl, rfl⟩ := h
      simp
  | cons dp rest ih =>
      intro m r h
      obtain ⟨c, m', r', hc, hp, hcase⟩ := popPartition_cons h
      obtain ⟨hm, hr, hmm, hrr, hcl, hlen, hstale⟩ := ih m' r' hp
      rcases hcase with ⟨hceq, rfl, rfl⟩ | ⟨hceq, rfl, rfl⟩ | ⟨hceq, rfl, rfl⟩ <;> subst hceq
      · refine ⟨?_, ?_, ?_, ?_, ?_, ?_, ?_⟩
        · intro x hx; obtain ⟨h1, h2⟩ := hm x hx; exact ⟨List.mem_cons_of_mem _ h1, h2⟩
        · intro x hx; obtain ⟨h1, h2⟩ := hr x hx; exact ⟨List.mem_cons_of_mem _ h1, h2⟩
        · intro x hx hcls
          rcases List.mem_cons.mp hx with rfl | hx'
          · rw [hc] at hcls; simp at hcls
          · exact hmm x hx' hcls
        · intro x hx hcls
          rcases List.mem_cons.mp hx with rfl | hx'
          · rw [hc] at hcls; simp at hcls
          · exact hrr x hx' hcls
        · intro x hx
          rcases List.mem_cons.mp hx with rfl | hx'
          · exact ⟨.stale, hc⟩
          · exact hcl x hx'
        · simp only [List.length_cons]; omega
        · intro x hx hcls
          simp only [List.length_cons]; omega
      · refine ⟨?_, ?_, ?_, ?_, ?_, ?_, ?_⟩
        · intro x hx
          rcases List.mem_cons.mp hx with rfl | hx'
          · exact ⟨List.mem_cons_self _ _, hc⟩
          · obtain ⟨h1, h2⟩ := hm x hx'; exact ⟨List.mem_cons_of_mem _ h1, h2⟩
        · intro x hx; obtain ⟨h1, h2⟩ := hr x hx; exact ⟨List.mem_cons_of_mem _ h1, h2⟩
        · intro x hx hcls
          rcases List.mem_cons.mp hx with rfl | hx'
          · exact List.mem_cons_self _ _
          · exact List.mem_cons_of_mem _ (hmm x hx' hcls)
        · intro x hx hcls
          rcases List.mem_cons.mp hx with rfl | hx'
          · rw [hc] at hcls; simp at hcls
          · exact hrr x hx' hcls
        · intro x hx
          rcases List.mem_cons.mp hx with rfl | hx'
          · exact ⟨.matched, hc⟩
          · exact hcl x hx'
        · simp only [List.length_cons]; omega
        · intro x hx hcls
          rcases List.mem_cons.mp hx with rfl | hx'
          · rw [hc] at hcls; simp at hcls
          · have := hstale x hx' hcls
            simp only [List.length_cons]; omega
      · refine ⟨?_, ?_, ?_, ?_, ?_, ?_, ?_⟩
        · intro x hx; obtain ⟨h1, h2⟩ := hm x hx; exact ⟨List.mem_cons_of_mem _ h1, h2⟩
        · intro x hx
          rcases List.mem_cons.mp hx with rfl | hx'
          · exact ⟨List.mem_cons_self _ _, hc⟩
          · obtain ⟨h1, h2⟩ := hr x hx'; exact ⟨List.mem_cons_of_mem _ h1, h2⟩
        · intro x hx hcls
          rcases List.mem_cons.mp hx with rfl | hx'
          · rw [hc] at hcls; simp at hcls
          · exact hmm x hx' hcls
        · intro x hx hcls
          rcases List.mem_cons.mp hx with rfl | hx'
          · exact List.mem_cons_self _ _
          · exact List.mem_cons_of_mem _ (hrr x hx' hcls)
        · intro x hx
          rcases List.mem_cons.mp hx with rfl | hx'
          · exact ⟨.remaining, hc⟩
          · exact hcl x hx'
        · simp only [List.length_cons]; omega
        · intro x hx hcls
          rcases List.mem_cons.mp hx with rfl | hx'
          · rw [hc] at hcls; simp at hcls
          · have := hstale x hx' hcls
            simp only [List.length_cons]; omega

/-- Unfolding `popDeferredForScope` on success: the returned list is the
loop's `matched`, and the store written (or kept) follows the
`matched.length > 0 || remaining.length !== old.length` test. -/
lemma popDeferredForScope_cases {store : Store} {now : Int} {scope : JStr}
    {p : List JsVal} {st' : Store}
    (h : popDeferredForScope store now scope = some (p, st')) :
    ∃ r, popPartition now (normalizeScope scope) (readRunState store).deferredProposals
        = some (p, r) ∧
      ((p.length > 0 ∨ r.length ≠ (readRunState store).deferredProposals.length) →
        st' = writeRunState { readRunState store with deferredProposals := r }) ∧
      (p.length = 0 ∧ r.length = (readRunState store).deferredProposals.length →
        st' = store) := by
  cases hp : popPartition now (normalizeScope scope) (readRunState store).deferredProposals with
  | none => unfold popDeferredForScope at h; dsimp only at h; rw [hp] at h; simp at h
  | some pr =>
    obtain ⟨m, r⟩ := pr
    unfold popDeferredForScope at h
    dsimp only at h
    rw [hp] at h
    simp only [Option.pure_def, Option.bind_eq_bind, Option.some_bind] at h
    by_cases hcond : (m.length > 0 ∨ r.length ≠ (readRunState store).deferredProposals.length)
    · rw [if_pos hcond] at h
      simp only [Option.some_inj, Prod.mk.injEq, pure] at h
      obtain ⟨rfl, rfl⟩ := h
      exact ⟨r, rfl, fun _ => rfl, fun hne => absurd hcond (by omega)⟩
    · rw [if_neg hcond] at h
      simp only [Option.some_inj, Prod.mk.injEq, pure] at h
      obtain ⟨rfl, rfl⟩ := h
      exact ⟨r, rfl, fun hcond' => absurd hcond' hcond, fun _ => rfl⟩

/-! ### Evaluating the loop body on well-formed proposals -/

lemma isPrefixOf_of_append {a b f : JStr} (h : (a ++ b).isPrefixOf f = true) :
    a.isPrefixOf f = true := by
  induction a generalizing f with
  | nil => simp
  | cons x xs ih =>
      cases f with
      | nil => simp at h
      | cons y ys =>
          rw [List.cons_append, isPrefixOf_cons_cons] at h
          rw [isPrefixOf_cons_cons]
          simp only [Bool.and_eq_true] at h ⊢
          exact ⟨h.1, ih h.2⟩

/-- On a string, the callback computes a plain prefix test: the second
disjunct `f.startsWith(ns + '/')` can only hold when the first
`f.startsWith(ns)` already does. -/
lemma startsWithScope_str (ns f : JStr) :
    startsWithScope ns (.str f) = some (ns.isPrefixOf f) := by
  unfold startsWithScope
  cases hb : ns.isPrefixOf f with
  | true => simp [jsStartsWith, hb]
  | false =>
      have h2 : (ns ++ ['/']).isPrefixOf f = false := by
        cases hh : (ns ++ ['/']).isPrefixOf f with
        | false => rfl
        | true => rw [isPrefixOf_of_append hh] at hb; exact absurd hb (by simp)
      simp [jsStartsWith, hb, h2]

lemma jsEveryList_startsWithScope (ns : JStr) (eff : List JStr) :
    jsEveryList (startsWithScope ns) (eff.map .str)
      = some (eff.all (fun f => ns.isPrefixOf f)) := by
  induction eff with
  | nil => rfl
  | cons f fs ih =>
      rw [List.map_cons, jsEveryList, startsWithScope_str]
      cases hb : ns.isPrefixOf f with
      | true =>
          simp only [Option.pure_def, Option.bind_eq_bind, Option.some_bind, if_true]
          rw [ih]
          simp [hb]
      | false =>
          simp only [Option.pure_def, Option.bind_eq_bind, Option.some_bind,
            Bool.false_eq_true, if_false]
          simp [hb]

/-- The effective path set: `files` if non-empty, else `allowed_paths`. -/
def effectivePaths (files allowed_paths : List JStr) : List JStr :=
  if 0 < files.length then files else allowed_paths

/-- The in-scope condition the loop body computes on a fully populated
proposal: the two `startsWith` disjuncts collapse to a plain
string-prefix test against the normalized scope. -/
def codeInScope (ns : JStr) (paths : List JStr) : Bool :=
  ns.isEmpty || paths.isEmpty || paths.all (fun f => ns.isPrefixOf f)

lemma popFiles_mkProposal (cat ttl dsc osc : JStr) (fl al : List JStr) (cf imp da : Int) :
    popFiles (mkProposal cat ttl dsc fl al cf imp osc da)
      = some (.arr ((effectivePaths fl al).map .str)) := by
  have h2 : jsGet (mkProposal cat ttl dsc fl al cf imp osc da) keyFiles
      = some (.arr (fl.map .str)) := rfl
  have h3 : jsGet (mkProposal cat ttl dsc fl al cf imp osc da) keyAllowedPaths
      = some (.arr (al.map .str)) := rfl
  have hlen : jsGet (.arr (fl.map JsVal.str)) ("length".toList)
      = some (.num (.int fl.length)) := by simp [jsGet]
  unfold popFiles
  rw [h2]
  simp only [Option.pure_def, Option.bind_eq_bind, Option.some_bind]
  rw [hlen]
  simp only [Option.some_bind, toNumber]
  by_cases hfl : 0 < fl.length
  · have hgt : JsNum.gt (.int (fl.length : Int)) (.int 0) = true := by
      simp only [JsNum.gt, decide_eq_true_eq]
      exact_mod_cast hfl
    simp only [hgt, if_true]
    simp [effectivePaths, hfl]
  · have hgt : JsNum.gt (.int (fl.length : Int)) (.int 0) = false := by
      simp only [JsNum.gt, decide_eq_false_iff_not]
      omega
    simp only [hgt, Bool.false_eq_true, if_false]
    rw [h3]
    simp [effectivePaths, hfl]

lemma popInScope_arr (ns : JStr) (eff : List JStr) :
    popInScope ns (.arr (eff.map .str)) = some (codeInScope ns eff) := by
  unfold popInScope
  cases hns : ns.isEmpty with
  | true => simp [codeInScope, hns]
  | false =>
      simp only [Bool.false_eq_true, if_false]
      have hlen : jsGet (.arr (eff.map JsVal.str)) ("length".toList)
          = some (.num (.int eff.length)) := by simp [jsGet]
      rw [hlen]
      simp only [Option.pure_def, Option.bind_eq_bind, Option.some_bind]
      by_cases he : eff = []
      · subst he
        simp [jsStrictEq, codeInScope, hns]
      · have hlen0 : eff.length ≠ 0 := by simpa using he
        have hse : jsStrictEq (.num (.int (eff.length : Int))) (.num (.int 0)) = false := by
          simp only [jsStrictEq, decide_eq_false_iff_not]
          omega
        rw [hse]
        simp only [Bool.false_eq_true, if_false, jsEvery]
        rw [jsEveryList_startsWithScope]
        simp [codeInScope, hns, List.isEmpty_iff, he]

/-- The loop body on a fully populated proposal. -/
lemma popClassify_mkProposal (now : Int) (ns : JStr) (cat ttl dsc osc : JStr)
    (fl al : List JStr) (cf imp da : Int) :
    popClassify now ns (mkProposal cat ttl dsc fl al cf imp osc da) =
      some (if MAX_DEFERRED_AGE_MS < now - da then .stale
            else if codeInScope ns (effectivePaths fl al) then .matched
            else .remaining) := by
  have h1 : jsGet (mkProposal cat ttl dsc fl al cf imp osc da) keyDeferredAt
      = some (.num (.int da)) := rfl
  unfold popClassify
  rw [h1]
  simp only [Option.pure_def, Option.bind_eq_bind, Option.some_bind, toNumber, JsNum.sub]
  by_cases hd : MAX_DEFERRED_AGE_MS < now - da
  · have hgt : JsNum.gt (.int (now - da)) (.int MAX_DEFERRED_AGE_MS) = true := by
      simp [JsNum.gt, hd]
    simp only [hgt, if_true]
    simp [hd]
  · have hgt : JsNum.gt (.int (now - da)) (.int MAX_DEFERRED_AGE_MS) = false := by
      simp [JsNum.gt, hd]
    simp only [hgt, Bool.false_eq_true, if_false]
    rw [popFiles_mkProposal]
    simp only [Option.some_bind]
    rw [popInScope_arr]
    simp only [Option.some_bind]
    cases hc : codeInScope ns (effectivePaths fl al) <;> simp [hd, hc]

/-! ## Concrete fixtures used by witnesses and counterexamples -/

/-- A fully populated proposal touching `pkg/foo.ts`, deferred at time 0. -/
def sampleProposal : JsVal :=
  mkProposal "cat".toList "t1".toList "d".toList ["pkg/foo.ts".toList] [] 1 2 "pkg".toList 0

/-- A store holding exactly `sampleProposal`. -/
def sampleStore : Store :=
  writeRunState { DEFAULT_STATE with deferredProposals := [sampleProposal] }

/-- A well-formed state used for the round-trip witness. -/
def sampleState : RunState :=
  { totalCycles := .num (.int 5), lastDocsAuditCycle := .num (.int 2),
    lastRunAt := .num (.int 99), deferredProposals := [sampleProposal] }

/-- A store with `totalCycles = 5`, `lastDocsAuditCycle = 2`. -/
def docsStore : Store :=
  writeRunState { DEFAULT_STATE with
    totalCycles := .num (.int 5), lastDocsAuditCycle := .num (.int 2) }

/-- A guidelines filesystem whose every file holds 4001 copies of `a`. -/
def bigFileFS : GuidelinesFS :=
  { pathExists := fun _ => true, readFile := fun _ => some (List.replicate 4001 'a') }

/-! ## Claim theorems -/

/-- C7: if the backing state file exists but its content is not valid
JSON, `readRunState` returns exactly the default zero-state
(`totalCycles = 0`, `lastDocsAuditCycle = 0`, `lastRunAt = 0`,
`deferredProposals = []`).  No error reaches the caller: the model's
`readRunState` is a total function (the `catch` branch is this very
equation). -/
theorem readRunState_invalid_default :
    readRunState (some .invalid) =
      { totalCycles := .num (.int 0), lastDocsAuditCycle := .num (.int 0),
        lastRunAt := .num (.int 0), deferredProposals := [] } := rfl

/-- C5: for every persisted state with integer counters `a` and `b` and
every interval `k`, `isDocsAuditDue` returns `true` iff `a - b ≥ k`; it
performs no mutation (its type consumes the store read-only, mirroring
that the source only calls `readRunState`); and immediately after
`recordDocsAudit` it returns `false` for every positive interval, in
particular the default `interval = 3`. -/
theorem isDocsAuditDue_spec (store : Store) (k a b : Int)
    (ha : (readRunState store).totalCycles = .num (.int a))
    (hb : (readRunState store).lastDocsAuditCycle = .num (.int b)) :
    (isDocsAuditDue store k = true ↔ a - b ≥ k) ∧
    (∀ k', 0 < k' → isDocsAuditDue (recordDocsAudit store) k' = false) := by
  constructor
  · unfold isDocsAuditDue
    dsimp only
    rw [ha, hb]
    simp only [toNumber, JsNum.sub, JsNum.ge, decide_eq_true_eq, ge_iff_le]
  · intro k' hk'
    unfold isDocsAuditDue recordDocsAudit
    dsimp only
    rw [readRunState_writeRunState]
    dsimp only
    cases htc : toNumber (jsCoalesce (readRunState store).totalCycles (.num (.int 0))) with
    | nan => simp [JsNum.sub, JsNum.ge]
    | int i =>
        simp only [JsNum.sub, JsNum.ge, decide_eq_false_iff_not]
        omega

/-- C5 witness: on a store with `totalCycles = 5`, `lastDocsAuditCycle =
2`, the audit is due at interval 3 and no longer due right after
`recordDocsAudit`. -/
theorem isDocsAuditDue_spec_witness :
    (readRunState docsStore).totalCycles = .num (.int 5) ∧
    (readRunState docsStore).lastDocsAuditCycle = .num (.int 2) ∧
    (isDocsAuditDue docsStore 3 = true ↔ (5 : Int) - 2 ≥ 3) ∧
    isDocsAuditDue (recordDocsAudit docsStore) 3 = false := by
  refine ⟨rfl, rfl, ?_, ?_⟩
  · exact (isDocsAuditDue_spec docsStore 3 5 2 rfl rfl).1
  · exact (isDocsAuditDue_spec docsStore 3 5 2 rfl rfl).2 3 (by norm_num)

/-- C6: writing a well-formed state (integer counters, every deferred
proposal fully populated with the declared fields) and reading it back
returns a state equal to the one written. -/
theorem runState_roundtrip (s : RunState) (a b c : Int)
    (ha : s.totalCycles = .num (.int a))
    (hb : s.lastDocsAuditCycle = .num (.int b))
    (hc : s.lastRunAt = .num (.int c))
    (hdp : ∀ dp ∈ s.deferredProposals, ∃ cat ttl dsc fl al cf imp osc da,
      dp = mkProposal cat ttl dsc fl al cf imp osc da) :
    readRunState (writeRunState s) = s := by
  obtain ⟨tc, ldac, lra, dps⟩ := s
  dsimp only at ha hb hc
  subst ha; subst hb; subst hc
  rfl

/-- C6 witness: the round trip on a concrete well-formed state. -/
theorem runState_roundtrip_witness :
    readRunState (writeRunState sampleState) = sampleState := by
  apply runState_roundtrip sampleState 5 2 99 rfl rfl rfl
  intro dp hdp
  simp only [sampleState, List.mem_singleton] at hdp
  exact ⟨"cat".toList, "t1".toList, "d".toList, ["pkg/foo.ts".toList], [], 1, 2,
    "pkg".toList, 0, by rw [hdp]; rfl⟩

/-- C4: for a scope `s` with no trailing `*` and no trailing `/`, the
scopes `s`, `s/`, `s/*` and `s/**` all normalize to `s`, and
`popDeferredForScope` behaves identically (same returned proposals, same
persisted backlog) on all four. -/
theorem normalizeScope_variants_agree (s : JStr)
    (h1 : ['*'].isPrefixOf s.reverse = false)
    (h2 : ['/'].isPrefixOf s.reverse = false) :
    normalizeScope s = s ∧
    normalizeScope (s ++ ['/']) = s ∧
    normalizeScope (s ++ ['/', '*']) = s ∧
    normalizeScope (s ++ ['/', '*', '*']) = s ∧
    ∀ store now,
      popDeferredForScope store now (s ++ ['/']) = popDeferredForScope store now s ∧
      popDeferredForScope store now (s ++ ['/', '*']) = popDeferredForScope store now s ∧
      popDeferredForScope store now (s ++ ['/', '*', '*']) = popDeferredForScope store now s := by
  obtain ⟨n0, n1, n2, n3⟩ := normalizeScope_eq_of_clean h1 h2
  refine ⟨n0, n1, n2, n3, fun store now => ⟨?_, ?_, ?_⟩⟩
  · exact popDeferredForScope_norm_congr (by rw [n1, n0]) store now
  · exact popDeferredForScope_norm_congr (by rw [n2, n0]) store now
  · exact popDeferredForScope_norm_congr (by rw [n3, n0]) store now

/-- C4 witness: the four wildcard variants of scope `pkg` normalize alike
and pop identically on a concrete store. -/
theorem normalizeScope_variants_agree_witness :
    normalizeScope ("pkg/**".toList) = "pkg".toList ∧
    normalizeScope ("pkg/*".toList) = "pkg".toList ∧
    normalizeScope ("pkg/".toList) = "pkg".toList ∧
    normalizeScope ("pkg".toList) = "pkg".toList ∧
    popDeferredForScope sampleStore 1000 ("pkg/**".toList)
      = popDeferredForScope sampleStore 1000 ("pkg".toList) := by
  have h := normalizeScope_variants_agree ("pkg".toList) (by decide) (by decide)
  have e2 : "pkg/**".toList = "pkg".toList ++ ['/', '*', '*'] := rfl
  have e1 : "pkg/*".toList = "pkg".toList ++ ['/', '*'] := rfl
  have e0 : "pkg/".toList = "pkg".toList ++ ['/'] := rfl
  refine ⟨?_, ?_, ?_, h.1, ?_⟩
  · rw [e2]; exact h.2.2.2.1
  · rw [e1]; exact h.2.2.1
  · rw [e0]; exact h.2.1
  · rw [e2]; exact (h.2.2.2.2 sampleStore 1000).2.2

/-- C8: a guidelines file longer than 4000 characters is returned as
exactly its first 4000 characters with the truncation marker appended;
content of 4000 characters or fewer is returned unmodified, with no
marker. -/
theorem guidelines_truncation (fs : GuidelinesFS) (now : Int) (rel content : JStr)
    (hex : fs.pathExists rel = true) (hread : fs.readFile rel = some content)
    (backend : GuidelinesBackend) :
    (content.length > MAX_CHARS →
      loadGuidelines fs now backend (.path rel) =
        some { content := content.take MAX_CHARS ++ truncMarker,
               source := rel, loadedAt := now }) ∧
    (content.length ≤ MAX_CHARS →
      loadGuidelines fs now backend (.path rel) =
        some { content := content, source := rel, loadedAt := now }) := by
  have hload : loadGuidelines fs now backend (.path rel) = readGuidelinesFile fs now rel := rfl
  constructor <;> intro hlen <;> rw [hload] <;> unfold readGuidelinesFile <;>
    simp only [hex, if_true] <;> rw [hread]
  · dsimp only
    rw [if_pos hlen]
  · dsimp only
    rw [if_neg (by omega)]

/-- C8 witness: a 4001-character file comes back as its first 4000
characters plus the marker. -/
theorem guidelines_truncation_witness :
    (List.replicate 4001 'a').length > MAX_CHARS ∧
    loadGuidelines bigFileFS 7 .claude (.path ("X.md".toList)) =
      some { content := (List.replicate 4001 'a').take MAX_CHARS ++ truncMarker,
             source := "X.md".toList, loadedAt := 7 } := by
  have hlen : (List.replicate 4001 'a').length > MAX_CHARS := by
    rw [List.length_replicate]
    norm_num [MAX_CHARS]
  exact ⟨hlen, (guidelines_truncation bigFileFS 7 ("X.md".toList) _ rfl rfl .claude).1 hlen⟩

/-- A non-expired proposal whose only file `pkgextra.ts` does not equal
and is not a `/`-extension of the scope `pkg`, yet string-prefix-matches
it. -/
def nonScopeProposal : JsVal :=
  mkProposal "cat".toList "t9".toList "d".toList ["pkgextra.ts".toList] [] 1 2 "".toList 0

/-- A store holding exactly `nonScopeProposal`. -/
def plainStore : Store :=
  writeRunState { DEFAULT_STATE with deferredProposals := [nonScopeProposal] }

/-- C1 counterexample: under the claim's matching condition (every
effective path equals the normalized scope or starts with it followed by
`/`) the file `pkgextra.ts` is out of scope for `pkg`, so the claim says
the proposal stays in the backlog; but the code tests
`f.startsWith(normalizedScope)`, which `pkgextra.ts` passes, so the
non-expired proposal is returned and removed. -/
theorem popDeferredForScope_spec_match_counterexample :
    specInScope ("pkg".toList) ["pkgextra.ts".toList] = false ∧
    (1000 : Int) - 0 ≤ MAX_DEFERRED_AGE_MS ∧
    popDeferredForScope plainStore 1000 ("pkg".toList) =
      some ([nonScopeProposal],
        writeRunState { DEFAULT_STATE with deferredProposals := [] }) := by
  refine ⟨by decide, by decide, ?_⟩
  rfl

/-- C1 (amended): for a call `popDeferredForScope(root, scope)` that
completes and a stored, fully populated, non-expired proposal, the
proposal is removed from the backlog and returned exactly when the
normalized scope is empty, or its effective path set (`files` if
non-empty, else `allowed_paths`) is empty, or every effective path starts
with the normalized scope as a plain string prefix (paths equal to the
scope or extending it with `/` are particular cases); otherwise it
remains in the persisted backlog. -/
theorem popDeferredForScope_match_iff (store : Store) (now : Int) (scope : JStr)
    (p : List JsVal) (st' : Store)
    (hpop : popDeferredForScope store now scope = some (p, st'))
    (cat ttl dsc osc : JStr) (fl al : List JStr) (cf imp da : Int)
    (dp : JsVal) (hdp : dp = mkProposal cat ttl dsc fl al cf imp osc da)
    (hmem : dp ∈ (readRunState store).deferredProposals)
    (hfresh : now - da ≤ MAX_DEFERRED_AGE_MS) :
    ((dp ∈ p ∧ dp ∉ (readRunState st').deferredProposals)
      ↔ codeInScope (normalizeScope scope) (effectivePaths fl al) = true) ∧
    ((dp ∉ p ∧ dp ∈ (readRunState st').deferredProposals)
      ↔ codeInScope (normalizeScope scope) (effectivePaths fl al) = false) := by
  obtain ⟨r, hpart, hwrite, hkeep⟩ := popDeferredForScope_cases hpop
  obtain ⟨hm, hr, hmm, hrr, hcl, hlen, hstale⟩ :=
    popPartition_sound now (normalizeScope scope) _ _ _ hpart
  have hcls := popClassify_mkProposal now (normalizeScope scope) cat ttl dsc osc fl al cf imp da
  rw [if_neg (by omega)] at hcls
  rw [← hdp] at hcls
  cases hc : codeInScope (normalizeScope scope) (effectivePaths fl al) with
  | true =>
      rw [hc] at hcls
      simp only [if_true] at hcls
      have hinp : dp ∈ p := hmm _ hmem hcls
      have hwr : st' = writeRunState { readRunState store with deferredProposals := r } :=
        hwrite (Or.inl (List.length_pos.mpr (fun he => by subst he; simp at hinp)))
      have hnotr : dp ∉ r := by
        intro hx
        have := (hr _ hx).2
        rw [hcls] at this
        simp at this
      constructor
      · exact ⟨fun _ => rfl, fun _ => ⟨hinp, by
          rw [hwr, readRunState_writeRunState]; exact hnotr⟩⟩
      · constructor
        · rintro ⟨hnp, _⟩; exact absurd hinp hnp
        · intro hfalse; simp at hfalse
  | false =>
      rw [hc] at hcls
      simp only [Bool.false_eq_true, if_false] at hcls
      have hnotp : dp ∉ p := by
        intro hx
        have := (hm _ hx).2
        rw [hcls] at this
        simp at this
      have hinr : dp ∈ r := hrr _ hmem hcls
      have hback : dp ∈ (readRunState st').deferredProposals := by
        by_cases hcond : (p.length > 0 ∨ r.length ≠ (readRunState store).deferredProposals.length)
        · rw [hwrite hcond, readRunState_writeRunState]
          exact hinr
        · push_neg at hcond
          rw [hkeep ⟨by omega, hcond.2⟩]
          exact hmem
      constructor
      · constructor
        · rintro ⟨hinp, _⟩; exact absurd hinp hnotp
        · intro htrue; simp at htrue
      · exact ⟨fun _ => rfl, fun _ => ⟨hnotp, hback⟩⟩

/-- The store `popDeferredForScope` persists after popping the sample
proposal. -/
def poppedSampleStore : Store :=
  writeRunState { readRunState sampleStore with deferredProposals := [] }

/-- C1 witness: the sample proposal with `files = ["pkg/foo.ts"]` is
returned and removed for scope `pkg`; instantiating the theorem at that
call discharges its hypotheses. -/
theorem popDeferredForScope_match_iff_witness :
    popDeferredForScope sampleStore 1000 ("pkg".toList)
      = some ([sampleProposal], poppedSampleStore) ∧
    (1000 : Int) - 0 ≤ MAX_DEFERRED_AGE_MS ∧
    codeInScope (normalizeScope ("pkg".toList)) (effectivePaths ["pkg/foo.ts".toList] []) = true ∧
    sampleProposal ∈ ([sampleProposal] : List JsVal) ∧
    sampleProposal ∉ (readRunState poppedSampleStore).deferredProposals := by
  have h := popDeferredForScope_match_iff sampleStore 1000 ("pkg".toList)
    [sampleProposal] poppedSampleStore rfl
    "cat".toList "t1".toList "d".toList "pkg".toList ["pkg/foo.ts".toList] [] 1 2 0
    sampleProposal rfl (show sampleProposal ∈ [sampleProposal] from List.mem_singleton.mpr rfl)
    (by decide)
  obtain ⟨hin, hnot⟩ := h.1.mpr (by decide)
  exact ⟨rfl, by decide, by decide, hin, hnot⟩

/-- A fully populated proposal deferred at time 0, expired at any `now`
beyond 7 days. -/
def expiredProposal : JsVal :=
  mkProposal "cat".toList "t2".toList "d".toList ["pkg/foo.ts".toList] [] 1 2 "".toList 0

/-- A store holding exactly `expiredProposal`. -/
def expiredStore : Store :=
  writeRunState { DEFAULT_STATE with deferredProposals := [expiredProposal] }

/-- What `popDeferredForScope` persists after pruning `expiredStore`. -/
def expiredPrunedStore : Store :=
  writeRunState { readRunState expiredStore with deferredProposals := [] }

/-- C2: a stored proposal whose age exceeds 7 days
(`now - deferredAt > 604800000`) is not in the returned sequence of a
completing `popDeferredForScope` call and is absent from the backlog the
call persists, regardless of scope; and the call does persist (the final
conjunct exhibits the written store), since pruning alone already changes
the stored set. -/
theorem popDeferredForScope_expired_pruned (store : Store) (now : Int) (scope : JStr)
    (p : List JsVal) (st' : Store)
    (hpop : popDeferredForScope store now scope = some (p, st'))
    (dp : JsVal) (hmem : dp ∈ (readRunState store).deferredProposals)
    (da : JsVal) (hda : jsGet dp keyDeferredAt = some da)
    (t : Int) (ht : toNumber da = .int t)
    (hexp : now - t > MAX_DEFERRED_AGE_MS) :
    dp ∉ p ∧
    dp ∉ (readRunState st').deferredProposals ∧
    st' = writeRunState { readRunState store with
      deferredProposals := (readRunState st').deferredProposals } := by
  obtain ⟨r, hpart, hwrite, hkeep⟩ := popDeferredForScope_cases hpop
  obtain ⟨hm, hr, hmm, hrr, hcl, hlen, hstale⟩ :=
    popPartition_sound now (normalizeScope scope) _ _ _ hpart
  have hcls : popClassify now (normalizeScope scope) dp = some .stale := by
    unfold popClassify
    rw [hda]
    simp only [Option.pure_def, Option.bind_eq_bind, Option.some_bind]
    rw [ht]
    have hgt : JsNum.gt (JsNum.sub (.int now) (.int t)) (.int MAX_DEFERRED_AGE_MS) = true := by
      simp only [JsNum.sub, JsNum.gt, decide_eq_true_eq]
      omega
    simp [hgt]
  have hnotp : dp ∉ p := fun hx => by
    have := (hm _ hx).2; rw [hcls] at this; simp at this
  have hnotr : dp ∉ r := fun hx => by
    have := (hr _ hx).2; rw [hcls] at this; simp at this
  have hlt := hstale _ hmem hcls
  have hcond : p.length > 0 ∨ r.length ≠ (readRunState store).deferredProposals.length := by
    omega
  have hwr := hwrite hcond
  have hbacklog : (readRunState st').deferredProposals = r := by
    rw [hwr, readRunState_writeRunState]
  refine ⟨hnotp, ?_, ?_⟩
  · rw [hbacklog]; exact hnotr
  · rw [hbacklog, hwr]

/-- C2 witness: the expired sample proposal is pruned (and not returned)
by a call whose scope it does not even match. -/
theorem popDeferredForScope_expired_pruned_witness :
    popDeferredForScope expiredStore 1000000000000 ("other".toList)
      = some ([], expiredPrunedStore) ∧
    (1000000000000 : Int) - 0 > MAX_DEFERRED_AGE_MS ∧
    expiredProposal ∉ ([] : List JsVal) ∧
    expiredProposal ∉ (readRunState expiredPrunedStore).deferredProposals := by
  have h := popDeferredForScope_expired_pruned expiredStore 1000000000000 ("other".toList)
    [] expiredPrunedStore rfl expiredProposal
    (show expiredProposal ∈ [expiredProposal] from List.mem_singleton.mpr rfl)
    (.num (.int 0)) rfl 0 rfl (by decide)
  exact ⟨rfl, by decide, h.1, h.2.1⟩

/-- C3 counterexample: a proposal deferred at time 0 is more than 7 days
old at `now = 10^12`, yet `readRunState` returns it, and a `recordCycle`
call at that time both returns it and writes it back to the file. -/
theorem readRunState_returns_expired_counterexample :
    (1000000000000 : Int) - 0 > MAX_DEFERRED_AGE_MS ∧
    jsGet expiredProposal keyDeferredAt = some (.num (.int 0)) ∧
    expiredProposal ∈ (readRunState expiredStore).deferredProposals ∧
    expiredProposal ∈ (recordCycle expiredStore 1000000000000).1.deferredProposals ∧
    expiredProposal ∈ (readRunState (recordCycle expiredStore 1000000000000).2).deferredProposals := by
  refine ⟨by decide, rfl, ?_, ?_, ?_⟩ <;>
    exact show expiredProposal ∈ [expiredProposal] from List.mem_singleton.mpr rfl

/-- C3 (amended): the 7-day expiry is enforced only by
`popDeferredForScope`: its loop never places a stale-classified proposal
in the returned or remaining lists, while `readRunState` (on any written
state), `recordCycle`, `recordDocsAudit` and `deferProposal` return and
persist the stored backlog verbatim (`deferProposal` at most appends),
with no expiry filtering. -/
theorem expiry_enforced_only_by_pop (now : Int) (ns : JStr) :
    (∀ (l m r : List JsVal) (dp : JsVal),
        popPartition now ns l = some (m, r) →
        popClassify now ns dp = some .stale → dp ∉ m ∧ dp ∉ r) ∧
    (∀ s : RunState, (readRunState (writeRunState s)).deferredProposals = s.deferredProposals) ∧
    (∀ store : Store,
        (recordCycle store now).1.deferredProposals = (readRunState store).deferredProposals ∧
        (readRunState (recordCycle store now).2).deferredProposals
          = (readRunState store).deferredProposals ∧
        (readRunState (recordDocsAudit store)).deferredProposals
          = (readRunState store).deferredProposals) ∧
    (∀ (store : Store) (prop : JsVal) (st' : Store),
        deferProposal store prop = some st' →
        (readRunState st').deferredProposals = (readRunState store).deferredProposals ∨
        (readRunState st').deferredProposals
          = (readRunState store).deferredProposals ++ [prop]) := by
  refine ⟨?_, fun s => rfl, fun store => ⟨rfl, rfl, rfl⟩, ?_⟩
  · intro l m r dp hpart hcls
    obtain ⟨hm, hr, _, _, _, _, _⟩ := popPartition_sound now ns _ _ _ hpart
    constructor
    · intro hx; have := (hm _ hx).2; rw [hcls] at this; simp at this
    · intro hx; have := (hr _ hx).2; rw [hcls] at this; simp at this
  · intro store prop st' h
    unfold deferProposal at h
    dsimp only at h
    cases hdup : someTitleEq prop (readRunState store).deferredProposals with
    | none => rw [hdup] at h; simp at h
    | some b =>
        rw [hdup] at h
        simp only [Option.pure_def, Option.bind_eq_bind, Option.some_bind] at h
        cases b with
        | true =>
            simp only [if_true, Option.some_inj] at h
            subst h; exact Or.inl rfl
        | false =>
            simp only [Bool.false_eq_true, if_false, Option.some_inj] at h
            subst h
            rw [readRunState_writeRunState]
            exact Or.inr rfl

/-- C3 amended-claim witness: the loop drops the concrete expired
proposal from both output lists, and `recordDocsAudit` writes it back
untouched. -/
theorem expiry_enforced_only_by_pop_witness :
    popPartition 1000000000000 ("other".toList) [expiredProposal] = some ([], []) ∧
    popClassify 1000000000000 ("other".toList) expiredProposal = some .stale ∧
    expiredProposal ∉ ([] : List JsVal) ∧
    (readRunState (recordDocsAudit expiredStore)).deferredProposals
      = (readRunState expiredStore).deferredProposals := by
  have h := expiry_enforced_only_by_pop 1000000000000 ("other".toList)
  refine ⟨rfl, rfl, ?_, (h.2.2.1 expiredStore).2.2⟩
  exact (h.1 [expiredProposal] [] [] expiredProposal rfl rfl).1

/-- C9: each mutating operation leaves every non-designated field of the
persisted state unchanged: `recordCycle` preserves `lastDocsAuditCycle`
and the backlog (both in its return value and in the file it writes);
`recordDocsAudit` preserves `totalCycles`, `lastRunAt` and the backlog;
`deferProposal` and `popDeferredForScope` preserve all three scalar
fields. -/
theorem mutations_frame (store : Store) (now : Int) :
    ((recordCycle store now).1.lastDocsAuditCycle = (readRunState store).lastDocsAuditCycle ∧
     (recordCycle store now).1.deferredProposals = (readRunState store).deferredProposals ∧
     (readRunState (recordCycle store now).2).lastDocsAuditCycle
       = (readRunState store).lastDocsAuditCycle ∧
     (readRunState (recordCycle store now).2).deferredProposals
       = (readRunState store).deferredProposals) ∧
    ((readRunState (recordDocsAudit store)).totalCycles = (readRunState store).totalCycles ∧
     (readRunState (recordDocsAudit store)).lastRunAt = (readRunState store).lastRunAt ∧
     (readRunState (recordDocsAudit store)).deferredProposals
       = (readRunState store).deferredProposals) ∧
    (∀ (prop : JsVal) (st' : Store), deferProposal store prop = some st' →
      (readRunState st').totalCycles = (readRunState store).totalCycles ∧
      (readRunState st').lastDocsAuditCycle = (readRunState store).lastDocsAuditCycle ∧
      (readRunState st').lastRunAt = (readRunState store).lastRunAt) ∧
    (∀ (scope : JStr) (p : List JsVal) (st' : Store),
      popDeferredForScope store now scope = some (p, st') →
      (readRunState st').totalCycles = (readRunState store).totalCycles ∧
      (readRunState st').lastDocsAuditCycle = (readRunState store).lastDocsAuditCycle ∧
      (readRunState st').lastRunAt = (readRunState store).lastRunAt) := by
  obtain ⟨t1, t2, l1, l2, r1, r2⟩ := readRunState_scalars_not_nullish store
  have hcoal_t : jsCoalesce (readRunState store).totalCycles (.num (.int 0))
      = (readRunState store).totalCycles := jsCoalesce_of_ne _ t1 t2
  have hcoal_l : jsCoalesce (readRunState store).lastDocsAuditCycle (.num (.int 0))
      = (readRunState store).lastDocsAuditCycle := jsCoalesce_of_ne _ l1 l2
  have hcoal_r : jsCoalesce (readRunState store).lastRunAt (.num (.int 0))
      = (readRunState store).lastRunAt := jsCoalesce_of_ne _ r1 r2
  refine ⟨?_, ?_, ?_, ?_⟩
  · have e : (recordCycle store now).2 = writeRunState
        { readRunState store with
          totalCycles := jsAdd (readRunState store).totalCycles (.num (.int 1))
          lastRunAt := .num (.int now) } := rfl
    refine ⟨rfl, rfl, ?_, ?_⟩
    · rw [e, readRunState_writeRunState]; exact hcoal_l
    · rw [e, readRunState_writeRunState]
  · have e : recordDocsAudit store = writeRunState
        { readRunState store with
          lastDocsAuditCycle := (readRunState store).totalCycles } := rfl
    refine ⟨?_, ?_, ?_⟩ <;> rw [e, readRunState_writeRunState]
    · exact hcoal_t
    · exact hcoal_r
  · intro prop st' h
    unfold deferProposal at h
    dsimp only at h
    cases hdup : someTitleEq prop (readRunState store).deferredProposals with
    | none => rw [hdup] at h; simp at h
    | some b =>
        rw [hdup] at h
        simp only [Option.pure_def, Option.bind_eq_bind, Option.some_bind] at h
        cases b with
        | true =>
            simp only [if_true, Option.some_inj] at h
            subst h; exact ⟨rfl, rfl, rfl⟩
        | false =>
            simp only [Bool.false_eq_true, if_false, Option.some_inj] at h
            subst h
            rw [readRunState_writeRunState]
            exact ⟨hcoal_t, hcoal_l, hcoal_r⟩
  · intro scope p st' h
    obtain ⟨r, hpart, hwrite, hkeep⟩ := popDeferredForScope_cases h
    by_cases hcond : (p.length > 0 ∨ r.length ≠ (readRunState store).deferredProposals.length)
    · rw [hwrite hcond, readRunState_writeRunState]
      exact ⟨hcoal_t, hcoal_l, hcoal_r⟩
    · push_neg at hcond
      rw [hkeep ⟨by omega, hcond.2⟩]
      exact ⟨rfl, rfl, rfl⟩

/-- The store `deferProposal` writes when appending `nonScopeProposal` to
the sample store. -/
def deferredSampleStore : Store :=
  writeRunState { readRunState sampleStore with
    deferredProposals := (readRunState sampleStore).deferredProposals ++ [nonScopeProposal] }

/-- C9 witness: the frame facts at a concrete store, with each
operation's hypotheses discharged by computation (`deferProposal` appends
`t9` next to `t1`; `popDeferredForScope` with scope `other` matches
nothing and keeps the store). -/
theorem mutations_frame_witness :
    deferProposal sampleStore nonScopeProposal = some deferredSampleStore ∧
    popDeferredForScope sampleStore 1000 ("other".toList) = some ([], sampleStore) ∧
    (readRunState (recordCycle sampleStore 1000).2).lastDocsAuditCycle
      = (readRunState sampleStore).lastDocsAuditCycle ∧
    (readRunState (recordDocsAudit sampleStore)).totalCycles
      = (readRunState sampleStore).totalCycles ∧
    (readRunState deferredSampleStore).lastRunAt = (readRunState sampleStore).lastRunAt ∧
    (readRunState sampleStore).totalCycles = (readRunState sampleStore).totalCycles := by
  have h := mutations_frame sampleStore 1000
  refine ⟨rfl, rfl, h.1.2.2.1, h.2.1.1, ?_, ?_⟩
  · exact (h.2.2.1 nonScopeProposal deferredSampleStore rfl).2.2
  · exact (h.2.2.2 ("other".toList) [] sampleStore rfl).1

/-- A backlog element missing `deferredAt` (and every other declared
field except `title`, `files`, `allowed_paths`). -/
def noDeferredAtProposal : JsVal :=
  .obj [(keyTitle, .str "t".toList),
        (keyFiles, .arr [.str "pkg/a".toList]),
        (keyAllowedPaths, .arr [])]

/-- A store holding exactly `noDeferredAtProposal`. -/
def noDeferredAtStore : Store :=
  writeRunState { DEFAULT_STATE with deferredProposals := [noDeferredAtProposal] }

/-- C10: `readRunState` defaults only the four top-level fields: when the
stored `deferredProposals` is a JSON array, its elements are returned
exactly as stored, with no per-element validation; and an element whose
`deferredAt` coerces to `NaN` (it is missing, i.e. `undefined`, or a
non-numeric value) is never classified as expired by a completing
`popDeferredForScope` call — it survives into the returned list or the
persisted backlog. -/
theorem readRunState_unvalidated_proposals (now : Int) (scope : JStr) :
    (∀ (fieldsv : List (JStr × JsVal)) (l : List JsVal),
        lookupField fieldsv keyDeferredProposals = .arr l →
        (readRunState (some (.json (.obj fieldsv)))).deferredProposals = l) ∧
    (∀ (store : Store) (p : List JsVal) (st' : Store) (dp da : JsVal),
        popDeferredForScope store now scope = some (p, st') →
        dp ∈ (readRunState store).deferredProposals →
        jsGet dp keyDeferredAt = some da →
        toNumber da = .nan →
        dp ∈ p ∨ dp ∈ (readRunState st').deferredProposals) := by
  constructor
  · intro fieldsv l h
    have hs := readStateFields_some (.obj fieldsv) _ _ _ _ rfl rfl rfl rfl
    simp only [readRunState, hs]
    rw [h]
    rfl
  · intro store p st' dp da hpop hmem hda hnan
    obtain ⟨r, hpart, hwrite, hkeep⟩ := popDeferredForScope_cases hpop
    obtain ⟨hm, hr, hmm, hrr, hcl, hlen, hstale⟩ :=
      popPartition_sound now (normalizeScope scope) _ _ _ hpart
    obtain ⟨c, hc⟩ := hcl _ hmem
    have hcnot : c ≠ .stale := by
      intro hceq; subst hceq
      unfold popClassify at hc
      rw [hda] at hc
      simp only [Option.pure_def, Option.bind_eq_bind, Option.some_bind] at hc
      rw [hnan] at hc
      have hgt : JsNum.gt (JsNum.sub (.int now) .nan) (.int MAX_DEFERRED_AGE_MS) = false := rfl
      rw [hgt] at hc
      simp only [Bool.false_eq_true, if_false] at hc
      cases hf : popFiles dp with
      | none => rw [hf] at hc; simp at hc
      | some files =>
          rw [hf] at hc
          simp only [Option.some_bind] at hc
          cases hs : popInScope (normalizeScope scope) files with
          | none => rw [hs] at hc; simp at hc
          | some b =>
              rw [hs] at hc
              simp only [Option.some_bind, Option.some_inj] at hc
              cases b <;> simp_all
    cases c with
    | stale => exact absurd rfl hcnot
    | matched => exact Or.inl (hmm _ hmem hc)
    | remaining =>
        have hinr := hrr _ hmem hc
        right
        by_cases hcond : (p.length > 0 ∨ r.length ≠ (readRunState store).deferredProposals.length)
        · rw [hwrite hcond, readRunState_writeRunState]
          exact hinr
        · push_neg at hcond
          rw [hkeep ⟨by omega, hcond.2⟩]
          exact hmem

/-- C10 witness: the element missing `deferredAt` comes back verbatim
from `readRunState` and, at a `now` far beyond any expiry horizon, is not
pruned by a scope that does not match it — it stays in the backlog. -/
theorem readRunState_unvalidated_proposals_witness :
    (readRunState noDeferredAtStore).deferredProposals = [noDeferredAtProposal] ∧
    jsGet noDeferredAtProposal keyDeferredAt = some .undefined ∧
    toNumber .undefined = .nan ∧
    popDeferredForScope noDeferredAtStore 1000000000000 ("other".toList)
      = some ([], noDeferredAtStore) ∧
    (noDeferredAtProposal ∈ ([] : List JsVal) ∨
      noDeferredAtProposal ∈ (readRunState noDeferredAtStore).deferredProposals) := by
  have h := readRunState_unvalidated_proposals 1000000000000 ("other".toList)
  refine ⟨?_, rfl, rfl, rfl, ?_⟩
  · exact h.1 [(keyTotalCycles, .num (.int 0)), (keyLastDocsAuditCycle, .num (.int 0)),
      (keyLastRunAt, .num (.int 0)), (keyDeferredProposals, .arr [noDeferredAtProposal])]
      [noDeferredAtProposal] rfl
  · exact h.2 noDeferredAtStore [] noDeferredAtStore noDeferredAtProposal .undefined rfl
      (List.mem_singleton.mpr rfl) rfl rfl
